import Mathlib

/-!
Shallow embedding of `gotham/src/handler/static_file.rs`, the static-file
response engine: path normalization, conditional-request evaluation,
entity tags, chunked file streaming, buffer sizing, and error mapping.

Modelling conventions:
* A filesystem path is a list of segments (`List String`); the component
  view produced by Rust's `Path::components` is a `List Component`.
* `std::time::SystemTime` is an `Int` of nanoseconds relative to the Unix
  epoch (negative = before the epoch); `u64`/`usize` quantities are `Nat`
  (no arithmetic in the source can overflow them: sizes come from the
  filesystem and only decrease).
* The external collaborators the spec declares opaque (the HTTP-date
  parser `httpdate::parse_http_date`, the MIME lookup
  `guess_mime_type_opt`, the filesystem, and the async read primitive
  `AsyncRead::read_buf`) are function parameters of the embedded
  operations.
-/

namespace StaticFile

/-- The component view of a Rust path (`std::path::Component`). -/
inductive Component where
  | prefixC (s : String)
  | rootDir
  | curDir
  | parentDir
  | normal (s : String)
deriving DecidableEq, Repr

/-- One fold step of `normalize_path` (static_file.rs:190-200): a normal
component is pushed onto the accumulated `PathBuf`, a parent-dir component
pops its last segment (`PathBuf::pop` is a no-op on an empty buffer), and
every other component (prefix, root, cur-dir) leaves it unchanged. -/
def normStep (result : List String) (p : Component) : List String :=
  match p with
  | Component.normal x => result ++ [x]
  | Component.parentDir => result.dropLast
  | _ => result

/-- `normalize_path` (static_file.rs:188-201): fold the component view of
the requested path into a fresh `PathBuf`, which therefore holds only the
pushed normal segments. -/
def normalize_path (path : List Component) : List String :=
  path.foldl normStep []

/-- The path built by `FileSystemHandler::handle` (static_file.rs:120-128):
`base_path.extend(&normalize_path(&file_path))` pushes each normalized
segment onto the root, i.e. appends the segment lists. -/
def resolve_path (root : List String) (parts : List Component) : List String :=
  root ++ normalize_path parts

/-- How Rust's path parser classifies a single pushed segment when the
resulting `PathBuf` is re-read through `.components()`. -/
def reparse_component (s : String) : Component :=
  if s = "" then Component.curDir
  else if s = "." then Component.curDir
  else if s = ".." then Component.parentDir
  else Component.normal s

/-- A string that `Path::components` can yield as a `Component::Normal`:
never empty, never the special segments `.` or `..`, and holding no path
separator. -/
def validSeg (s : String) : Prop :=
  s ≠ "" ∧ s ≠ "." ∧ s ≠ ".." ∧ s.data.contains '/' = false

instance (s : String) : Decidable (validSeg s) := by
  unfold validSeg; infer_instance

/-- File metadata as used by the handler (`std::fs::Metadata`): byte
length, optional modification time (nanoseconds relative to the Unix
epoch, `none` when the platform cannot report one), and the filesystem
block size reported on unix. -/
structure Metadata where
  len : Nat
  modified : Option Int
  blksize : Nat
deriving DecidableEq, Repr

/-- `SystemTime::duration_since` for a time `t` and an earlier reference
point: errors (`none`) when `t` precedes the reference, otherwise yields
the whole seconds and sub-second nanoseconds of the difference. -/
def duration_since (t : Int) (earlier : Int) : Option (Nat × Nat) :=
  if earlier ≤ t then some ((t - earlier).toNat / 1000000000, (t - earlier).toNat % 1000000000)
  else none

/-- Rust's lowercase hexadecimal rendering of a natural (`format!("{:x}")`). -/
def hexStr (n : Nat) : String :=
  String.mk (Nat.toDigits 16 n)

/-- `entity_tag` (static_file.rs:223-234): weak validator from size and
modification time, `W/"<hex size>-<hex secs>.<hex nanos>"`; `none` when
the modification time is unavailable or `duration_since(UNIX_EPOCH)`
fails. -/
def entity_tag (metadata : Metadata) : Option String :=
  metadata.modified.bind fun modified =>
    (duration_since modified 0).map fun duration =>
      "W/\"" ++ hexStr metadata.len ++ "-" ++ hexStr duration.1 ++ "." ++ hexStr duration.2 ++ "\""

/-- Second definition for the refinement check of the entity-tag claim,
following the spec's words: fails when modification time is unavailable or
precedes the epoch; otherwise hexadecimal size, hexadecimal whole seconds
since the epoch and hexadecimal sub-second nanoseconds joined as
`W/"<size>-<secs>.<nanos>"`. -/
def entityTagSpec (metadata : Metadata) : Option String :=
  match metadata.modified with
  | none => none
  | some t =>
    if t < 0 then none
    else some ("W/\"" ++ hexStr metadata.len ++ "-" ++ hexStr (t.toNat / 1000000000)
        ++ "." ++ hexStr (t.toNat % 1000000000) ++ "\"")

/-- The inbound headers the handler reads: all `If-None-Match` values
(`HeaderMap::get` answers `Some` exactly when the list is nonempty, and
`get_all` yields the whole list) and the raw `If-Modified-Since` value. -/
structure HeaderMap where
  ifNoneMatch : List String
  ifModifiedSince : Option String
deriving DecidableEq, Repr

/-- `not_modified` (static_file.rs:203-221). `parseHttpDate` abstracts
`httpdate::parse_http_date` composed with `HeaderValue::to_str` (both
failures collapse to `none`). If any `If-None-Match` value is present the
verdict is whether the computed entity tag byte-equals one of them
(`false` when the tag is not computable); only otherwise is
`If-Modified-Since` consulted: `true` iff it parses and the modification
time is available and `≤` the parsed date. -/
def not_modified (parseHttpDate : String → Option Int) (metadata : Metadata)
    (headers : HeaderMap) : Bool :=
  match headers.ifNoneMatch with
  | _ :: _ =>
    ((entity_tag metadata).map fun etag =>
      headers.ifNoneMatch.any fun v => v == etag).getD false
  | [] =>
    (headers.ifModifiedSince.bind fun v =>
      (parseHttpDate v).bind fun ifModifiedTime =>
        metadata.modified.map fun modified => decide (modified ≤ ifModifiedTime)).getD false

/-- Outcome of one `AsyncRead::read_buf` poll inside `file_stream`: the
bytes appended to the (previously drained) buffer, or an I/O error. The
read primitive itself is the spec's opaque collaborator; theorems bound
each successful read by the reserved capacity where the claim needs it. -/
inductive ReadResult where
  | ok (bytes : List Nat)
  | err
deriving DecidableEq, Repr

/-- One item yielded by the embedded stream: a byte chunk, or the
`io::Error` the `poll_fn` surfaces (which ends the stream). -/
inductive StreamItem where
  | chunk (bytes : List Nat)
  | ioError
deriving DecidableEq, Repr

/-- `file_stream` (static_file.rs:250-283) as the finite item sequence it
produces when driven against the given sequence of read outcomes, with
`len` the remaining-byte counter initialized from the metadata length.
Each poll: `len == 0` ends the stream; an erroring read yields the error
(ending the stream); a 0-byte read ends the stream early; otherwise
`buf.take().freeze()` hands the bytes of this read out as the chunk,
truncated to `len` (`chunk.split_to(len)`) when the read overshot the
counter, and `len` drops by the bytes consumed. Running out of `reads`
models end of input. The `buf_size` capacity reservation is invisible
here except through the bound it puts on each read's length. -/
def file_stream (len : Nat) (reads : List ReadResult) : List StreamItem :=
  match reads with
  | [] => []
  | r :: rest =>
    if len = 0 then []
    else
      match r with
      | ReadResult.err => [StreamItem.ioError]
      | ReadResult.ok bytes =>
        if bytes.length = 0 then []
        else if len < bytes.length then
          StreamItem.chunk (bytes.take len) :: file_stream 0 rest
        else
          StreamItem.chunk bytes :: file_stream (len - bytes.length) rest

/-- The successive values of `file_stream`'s `len` counter (the remaining
bytes), one entry per poll, starting with its initial value: the counter
stays put on the branches that end the stream, becomes `0` on a
truncating read, and otherwise drops by the bytes read. -/
def remaining_trace (len : Nat) (reads : List ReadResult) : List Nat :=
  match reads with
  | [] => [len]
  | r :: rest =>
    if len = 0 then [len]
    else
      match r with
      | ReadResult.err => [len]
      | ReadResult.ok bytes =>
        if bytes.length = 0 then [len]
        else if len < bytes.length then len :: remaining_trace 0 rest
        else len :: remaining_trace (len - bytes.length) rest

/-- Total number of body bytes in a stream's emitted chunks. -/
def stream_bytes (items : List StreamItem) : Nat :=
  (items.map fun i =>
    match i with
    | StreamItem.chunk c => c.length
    | StreamItem.ioError => 0).sum

/-- The `io::ErrorKind`s distinguished by the handler's error mapping;
every kind other than the two named ones takes the catch-all arm, so a
representative remainder suffices. -/
inductive ErrorKind where
  | notFound
  | permissionDenied
  | interrupted
  | unexpectedEof
  | otherKind
deriving DecidableEq, Repr

/-- `error_status` (static_file.rs:176-182). -/
def error_status (e : ErrorKind) : Nat :=
  match e with
  | ErrorKind.notFound => 404
  | ErrorKind.permissionDenied => 403
  | _ => 500

/-- `get_block_size` (static_file.rs:293-302): the metadata's `blksize`
on unix, the constant 8192 elsewhere. -/
def get_block_size (isUnix : Bool) (metadata : Metadata) : Nat :=
  if isUnix then metadata.blksize else 8192

/-- `optimal_buf_size` (static_file.rs:285-291):
`cmp::min(block_size as u64, metadata.len()) as usize` (the casts are
exact: `usize → u64` widens and the minimum fits back). -/
def optimal_buf_size (isUnix : Bool) (metadata : Metadata) : Nat :=
  min (get_block_size isUnix metadata) metadata.len

/-- `FileOptions` (static_file.rs:39-45). -/
structure FileOptions where
  path : List String
  cache_control : String
  gzip : Bool
  brotli : Bool
deriving DecidableEq, Repr

/-- The body attached to a 200 response: the `file_stream` of the opened
file, determined by the chosen buffer size and the metadata length (the
file handle itself is the one `File::open` yielded for the request's
path). 304 responses carry `Body::empty()`. -/
inductive BodyModel where
  | empty
  | stream (buf_size : Nat) (len : Nat)
deriving DecidableEq, Repr

/-- An assembled HTTP response: status, headers in insertion order, body. -/
structure Response where
  status : Nat
  headers : List (String × String)
  body : BodyModel
deriving DecidableEq, Repr

/-- What `create_file_response`'s future resolves to: `Ok((state, response))`,
or `Err((state, err.into_handler_error().with_status(status)))` carrying
the mapped status. -/
inductive HandlerOutcome where
  | ok (r : Response)
  | handlerError (status : Nat) (kind : ErrorKind)
deriving DecidableEq, Repr

/-- `create_file_response` (static_file.rs:137-174). `mimeForPath`
abstracts `mime_for_path`'s opaque MIME lookup (already including its
octet-stream fallback), and `fs` abstracts
`File::open(path).and_then(|file| file.metadata())`, the combined
open/metadata step whose failure is mapped by `error_status`. On a
not-modified verdict: 304 with empty body and no headers. Otherwise: 200
with `Content-Length`, `Content-Type`, an `ETag` header exactly when the
tag is computable, and the chunked stream as body. -/
def create_file_response (parseHttpDate : String → Option Int)
    (mimeForPath : List String → String) (fs : List String → Except ErrorKind Metadata)
    (isUnix : Bool) (path : List String) (headers : HeaderMap) : HandlerOutcome :=
  let mime_type := mimeForPath path
  match fs path with
  | Except.error e => HandlerOutcome.handlerError (error_status e) e
  | Except.ok meta =>
    if not_modified parseHttpDate meta headers then
      HandlerOutcome.ok { status := 304, headers := [], body := BodyModel.empty }
    else
      let len := meta.len
      let buf_size := optimal_buf_size isUnix meta
      HandlerOutcome.ok
        { status := 200
          headers := [("content-length", toString len), ("content-type", mime_type)] ++
            (match entity_tag meta with
             | some etag => [("etag", etag)]
             | none => [])
          body := BodyModel.stream buf_size len }

/-- `FileSystemHandler::handle` (static_file.rs:119-129): resolve the
request's glob segments against the configured root, then delegate. -/
def FileSystemHandler.handle (parseHttpDate : String → Option Int)
    (mimeForPath : List String → String) (fs : List String → Except ErrorKind Metadata)
    (isUnix : Bool) (options : FileOptions) (parts : List Component)
    (headers : HeaderMap) : HandlerOutcome :=
  create_file_response parseHttpDate mimeForPath fs isUnix
    (resolve_path options.path parts) headers

/-- `FileHandler::handle` (static_file.rs:131-135): serve the configured
single file, no path resolution. -/
def FileHandler.handle (parseHttpDate : String → Option Int)
    (mimeForPath : List String → String) (fs : List String → Except ErrorKind Metadata)
    (isUnix : Bool) (options : FileOptions) (headers : HeaderMap) : HandlerOutcome :=
  create_file_response parseHttpDate mimeForPath fs isUnix options.path headers

/-! ### Helper lemmas about `normalize_path` -/

theorem foldl_normStep_map_normal (l acc : List String) :
    List.foldl normStep acc (l.map Component.normal) = acc ++ l := by
  induction l generalizing acc with
  | nil => simp
  | cons x xs ih => simp [normStep, ih]

theorem mem_foldl_normStep (p : List Component) (acc : List String) (s : String)
    (h : s ∈ List.foldl normStep acc p) : s ∈ acc ∨ Component.normal s ∈ p := by
  induction p generalizing acc with
  | nil => exact Or.inl (by simpa using h)
  | cons c cs ih =>
    rw [List.foldl_cons] at h
    rcases ih (normStep acc c) h with hacc | hmem
    · cases c with
      | normal x =>
        rcases List.mem_append.mp hacc with h1 | h2
        · exact Or.inl h1
        · simp at h2
          subst h2
          exact Or.inr (List.mem_cons_self _ _)
      | parentDir => exact Or.inl (List.dropLast_subset acc hacc)
      | prefixC s => exact Or.inl hacc
      | rootDir => exact Or.inl hacc
      | curDir => exact Or.inl hacc
    · exact Or.inr (List.mem_cons_of_mem _ hmem)

theorem mem_normalize_path (p : List Component) (s : String)
    (h : s ∈ normalize_path p) : Component.normal s ∈ p := by
  rcases mem_foldl_normStep p [] s h with hacc | hmem
  · simp at hacc
  · exact hmem

/-! ### Claim theorems: path resolution -/

/-- C1: the output of `normalize_path` contains only normal components
(each drawn from the input), a `..` component only pops the last
accumulated component and has no effect on an empty accumulator, and the
path `FileSystemHandler::handle` builds — the root with the normalized
segments appended — is always equal to or strictly under the root. -/
theorem c1_normalize_path_never_escapes_root (root : List String) (parts : List Component) :
    root <+: resolve_path root parts
    ∧ (∀ s ∈ normalize_path parts, Component.normal s ∈ parts)
    ∧ (∀ ps : List Component,
        normalize_path (ps ++ [Component.parentDir]) = (normalize_path ps).dropLast)
    ∧ normalize_path [Component.parentDir] = []
    ∧ (normalize_path parts = [] → resolve_path root parts = root) := by
  refine ⟨List.prefix_append root _, fun s hs => mem_normalize_path parts s hs, ?_, rfl, ?_⟩
  · intro ps
    simp [normalize_path, List.foldl_append, normStep]
  · intro h
    simp [resolve_path, h]

/-- C8: `normalize_path` is idempotent — re-normalizing the component
view of its own output (whose segments, having been produced by
`Path::components`, are honest normal segments) returns it unchanged. -/
theorem c8_normalize_path_idempotent (p : List Component)
    (hvalid : ∀ s, Component.normal s ∈ p → validSeg s) :
    normalize_path ((normalize_path p).map reparse_component) = normalize_path p := by
  have hmap : (normalize_path p).map reparse_component
      = (normalize_path p).map Component.normal := by
    apply List.map_congr_left
    intro s hs
    rcases hvalid s (mem_normalize_path p s hs) with ⟨h1, h2, h3, _⟩
    simp [reparse_component, h1, h2, h3]
  rw [hmap]
  show List.foldl normStep [] ((normalize_path p).map Component.normal) = normalize_path p
  rw [foldl_normStep_map_normal]
  simp

/-- Witness for C8 at the concrete traversal-style input `a/../b.txt`. -/
theorem c8_witness :
    normalize_path ((normalize_path [Component.normal "a", Component.parentDir,
        Component.normal "b.txt"]).map reparse_component)
      = normalize_path [Component.normal "a", Component.parentDir, Component.normal "b.txt"] := by
  apply c8_normalize_path_idempotent
  intro s hs
  simp at hs
  rcases hs with h | h <;> subst h <;> decide

/-! ### Claim theorems: conditional requests and entity tags -/

/-- C4: `entity_tag` returns `none` exactly when the modification time is
unavailable or precedes the Unix epoch, and otherwise the weak validator
built from the hexadecimal size, whole seconds and sub-second nanoseconds
— stated as agreement with `entityTagSpec`, the definition transcribed
from the spec's words. -/
theorem c4_entity_tag_matches_spec (metadata : Metadata) :
    entity_tag metadata = entityTagSpec metadata := by
  unfold entity_tag entityTagSpec duration_since
  cases metadata.modified with
  | none => rfl
  | some t =>
    by_cases h : (0 : Int) ≤ t
    · simp [h, not_lt.mpr h]
    · simp [h, not_le.mp h]

/-- C2: with at least one `If-None-Match` value present, `not_modified`
is `true` iff the entity tag is computable and string-equals one of the
values; the `If-Modified-Since` header is ignored entirely (changing it
never changes the verdict), an uncomputable tag yields `false`, and a
computable tag matching no value yields `false`. -/
theorem c2_if_none_match_takes_precedence (parseHttpDate : String → Option Int)
    (metadata : Metadata) (headers : HeaderMap) (ims : Option String)
    (hne : headers.ifNoneMatch ≠ []) :
    (not_modified parseHttpDate metadata headers = true
      ↔ ∃ e, entity_tag metadata = some e ∧ e ∈ headers.ifNoneMatch)
    ∧ not_modified parseHttpDate metadata ⟨headers.ifNoneMatch, ims⟩
        = not_modified parseHttpDate metadata headers
    ∧ (entity_tag metadata = none → not_modified parseHttpDate metadata headers = false)
    ∧ (∀ e, entity_tag metadata = some e → e ∉ headers.ifNoneMatch
        → not_modified parseHttpDate metadata headers = false) := by
  obtain ⟨inm, imsOld⟩ := headers
  cases inm with
  | nil => exact absurd rfl hne
  | cons a as =>
    refine ⟨?_, rfl, ?_, ?_⟩
    · cases he : entity_tag metadata with
      | none => simp [not_modified, he]
      | some e0 =>
        simp only [not_modified, he, Option.map_some', Option.getD_some, List.any_eq_true,
          beq_iff_eq, Option.some.injEq]
        constructor
        · rintro ⟨x, hx, rfl⟩
          exact ⟨x, rfl, hx⟩
        · rintro ⟨e, rfl, hmem⟩
          exact ⟨e0, hmem, rfl⟩
    · intro he
      simp [not_modified, he]
    · intro e he hmem
      simp only [not_modified, he, Option.map_some', Option.getD_some, List.any_eq_false]
      intro x hx
      simp only [beq_iff_eq]
      exact fun hxe => hmem (hxe ▸ hx)

/-- Witness for C2: a request carrying the non-matching tag `bogus` and
an `If-Modified-Since` value is served fresh, and dropping the
`If-Modified-Since` header changes nothing. -/
theorem c2_witness :
    (not_modified (fun _ => some 0) ⟨1, some 0, 4096⟩ ⟨["bogus"], some "x"⟩ = true
      ↔ ∃ e, entity_tag ⟨1, some 0, 4096⟩ = some e ∧ e ∈ ["bogus"])
    ∧ not_modified (fun _ => some 0) ⟨1, some 0, 4096⟩ ⟨["bogus"], none⟩
        = not_modified (fun _ => some 0) ⟨1, some 0, 4096⟩ ⟨["bogus"], some "x"⟩
    ∧ (entity_tag ⟨1, some 0, 4096⟩ = none
        → not_modified (fun _ => some 0) ⟨1, some 0, 4096⟩ ⟨["bogus"], some "x"⟩ = false)
    ∧ (∀ e, entity_tag ⟨1, some 0, 4096⟩ = some e → e ∉ ["bogus"]
        → not_modified (fun _ => some 0) ⟨1, some 0, 4096⟩ ⟨["bogus"], some "x"⟩ = false) :=
  c2_if_none_match_takes_precedence (fun _ => some 0) ⟨1, some 0, 4096⟩
    ⟨["bogus"], some "x"⟩ none (by decide)

/-- C5: with no `If-None-Match` value, `not_modified` is `true` iff
`If-Modified-Since` is present, parses, the modification time is
available, and that time is `≤` the parsed date; the boundary cases:
a date equal to the modification time verdicts `true` (304) and a date
one second earlier verdicts `false` (200). -/
theorem c5_if_modified_since_verdict (parseHttpDate : String → Option Int)
    (metadata : Metadata) (headers : HeaderMap)
    (hnm : headers.ifNoneMatch = []) :
    (not_modified parseHttpDate metadata headers = true
      ↔ ∃ s d t, headers.ifModifiedSince = some s ∧ parseHttpDate s = some d
          ∧ metadata.modified = some t ∧ t ≤ d)
    ∧ (∀ s t, headers.ifModifiedSince = some s → metadata.modified = some t
        → parseHttpDate s = some t
        → not_modified parseHttpDate metadata headers = true)
    ∧ (∀ s t, headers.ifModifiedSince = some s → metadata.modified = some t
        → parseHttpDate s = some (t - 1000000000)
        → not_modified parseHttpDate metadata headers = false) := by
  obtain ⟨inm, ims⟩ := headers
  subst hnm
  refine ⟨?_, ?_, ?_⟩
  · cases ims with
    | none => simp [not_modified]
    | some s =>
      cases hp : parseHttpDate s with
      | none => simp [not_modified, hp]
      | some d =>
        cases hm : metadata.modified with
        | none => simp [not_modified, hp, hm]
        | some t => simp [not_modified, hp, hm]
  · intro s t hs hm hp
    subst hs
    simp [not_modified, hm, hp]
  · intro s t hs hm hp
    subst hs
    have hlt : ¬ (t ≤ t - 1000000000) := by omega
    simp [not_modified, hm, hp, hlt]

/-- Witness for C5: with the modification time at the epoch and an
`If-Modified-Since` parsing to the same instant, the verdict is 304. -/
theorem c5_witness :
    (not_modified (fun _ => some 0) ⟨1, some 0, 4096⟩ ⟨[], some "date"⟩ = true
      ↔ ∃ s d t, some "date" = some s ∧ (fun _ : String => some (0 : Int)) s = some d
          ∧ some (0 : Int) = some t ∧ t ≤ d)
    ∧ (∀ s t, some "date" = some s → some (0 : Int) = some t
        → (fun _ : String => some (0 : Int)) s = some t
        → not_modified (fun _ => some 0) ⟨1, some 0, 4096⟩ ⟨[], some "date"⟩ = true)
    ∧ (∀ s t, some "date" = some s → some (0 : Int) = some t
        → (fun _ : String => some (0 : Int)) s = some (t - 1000000000)
        → not_modified (fun _ => some 0) ⟨1, some 0, 4096⟩ ⟨[], some "date"⟩ = false) :=
  c5_if_modified_since_verdict (fun _ => some 0) ⟨1, some 0, 4096⟩ ⟨[], some "date"⟩ rfl

/-! ### Helper lemmas about `file_stream` -/

theorem file_stream_zero (reads : List ReadResult) : file_stream 0 reads = [] := by
  cases reads with
  | nil => rfl
  | cons r rest => simp [file_stream]

theorem stream_bytes_le (reads : List ReadResult) (len : Nat) :
    stream_bytes (file_stream len reads) ≤ len := by
  induction reads generalizing len with
  | nil => simp [file_stream, stream_bytes]
  | cons r rest ih =>
    by_cases h0 : len = 0
    · subst h0
      simp [file_stream, stream_bytes]
    · cases r with
      | err => simp [file_stream, h0, stream_bytes]
      | ok bytes =>
        by_cases hz : bytes.length = 0
        · simp [file_stream, h0, hz, stream_bytes]
        · by_cases hlt : len < bytes.length
          · simp [file_stream, h0, hz, hlt, stream_bytes, file_stream_zero, List.length_take]
          · simp only [file_stream, h0, hz, hlt, if_false, if_neg, stream_bytes, List.map_cons,
              List.sum_cons]
            have := ih (len - bytes.length)
            simp only [stream_bytes] at this
            omega

theorem file_stream_chunk_le (bufSize : Nat) (reads : List ReadResult) (len : Nat)
    (hb : ∀ b, ReadResult.ok b ∈ reads → b.length ≤ bufSize) :
    ∀ c, StreamItem.chunk c ∈ file_stream len reads → c.length ≤ bufSize := by
  induction reads generalizing len with
  | nil =>
    intro c hc
    simp [file_stream] at hc
  | cons r rest ih =>
    intro c hc
    by_cases h0 : len = 0
    · subst h0
      simp [file_stream] at hc
    · cases r with
      | err => simp [file_stream, h0] at hc
      | ok bytes =>
        have hble : bytes.length ≤ bufSize := hb bytes (List.mem_cons_self _ _)
        by_cases hz : bytes.length = 0
        · simp [file_stream, h0, hz] at hc
        · by_cases hlt : len < bytes.length
          · simp [file_stream, h0, hz, hlt, file_stream_zero] at hc
            subst hc
            calc (bytes.take len).length ≤ bytes.length := by
                  simp [List.length_take]
              _ ≤ bufSize := hble
          · simp only [file_stream, h0, hz, hlt, if_false, if_neg, List.mem_cons] at hc
            rcases hc with hc | hc
            · cases hc
              exact hble
            · exact ih (len - bytes.length) (fun b hbm => hb b (List.mem_cons_of_mem _ hbm)) c hc

theorem stream_bytes_full : ∀ (file : List (List Nat)) (len : Nat),
    (∀ b ∈ file, b ≠ []) → len ≤ (file.map List.length).sum →
    stream_bytes (file_stream len (file.map ReadResult.ok)) = len := by
  intro file
  induction file with
  | nil =>
    intro len _ hge
    simp at hge
    simp [hge, file_stream, stream_bytes]
  | cons b f ih =>
    intro len hne hge
    by_cases h0 : len = 0
    · subst h0
      simp [file_stream_zero, stream_bytes]
    · have hbne : b ≠ [] := hne b (List.mem_cons_self _ _)
      have hz : b.length ≠ 0 := fun h => hbne (List.length_eq_zero.mp h)
      by_cases hlt : len < b.length
      · simp [file_stream, h0, hz, hlt, stream_bytes, file_stream_zero, List.length_take]
        omega
      · simp only [List.map_cons, file_stream, h0, hz, hlt, if_false, if_neg, stream_bytes,
          List.sum_cons]
        have hrec : stream_bytes (file_stream (len - b.length) (f.map ReadResult.ok))
            = len - b.length := by
          apply ih (len - b.length) (fun x hx => hne x (List.mem_cons_of_mem _ hx))
          simp only [List.map_cons, List.sum_cons] at hge
          omega
        simp only [stream_bytes] at hrec
        omega

theorem stream_bytes_short : ∀ (file : List (List Nat)) (len : Nat),
    (∀ b ∈ file, b ≠ []) → (file.map List.length).sum < len →
    stream_bytes (file_stream len (file.map ReadResult.ok)) = (file.map List.length).sum := by
  intro file
  induction file with
  | nil =>
    intro len _ _
    simp [file_stream, stream_bytes]
  | cons b f ih =>
    intro len hne hlt
    simp only [List.map_cons, List.sum_cons] at hlt
    have hbne : b ≠ [] := hne b (List.mem_cons_self _ _)
    have hz : b.length ≠ 0 := fun h => hbne (List.length_eq_zero.mp h)
    have h0 : len ≠ 0 := by omega
    have hnlt : ¬ len < b.length := by omega
    simp only [List.map_cons, file_stream, h0, hz, hnlt, if_false, if_neg, stream_bytes,
      List.sum_cons]
    have hrec : stream_bytes (file_stream (len - b.length) (f.map ReadResult.ok))
        = (f.map List.length).sum := by
      apply ih (len - b.length) (fun x hx => hne x (List.mem_cons_of_mem _ hx))
      omega
    simp only [stream_bytes] at hrec
    omega

theorem remaining_trace_head (len : Nat) (reads : List ReadResult) :
    (remaining_trace len reads).head? = some len := by
  cases reads with
  | nil => rfl
  | cons r rest =>
    by_cases h0 : len = 0
    · simp [remaining_trace, h0]
    · cases r with
      | err => simp [remaining_trace, h0]
      | ok bytes =>
        by_cases hz : bytes.length = 0
        · simp [remaining_trace, h0, hz]
        · by_cases hlt : len < bytes.length <;> simp [remaining_trace, h0, hz, hlt]

theorem remaining_trace_antitone (reads : List ReadResult) (len : Nat) :
    List.Chain' (fun a b => b ≤ a) (remaining_trace len reads) := by
  induction reads generalizing len with
  | nil => simp [remaining_trace]
  | cons r rest ih =>
    by_cases h0 : len = 0
    · simp [remaining_trace, h0]
    · cases r with
      | err => simp [remaining_trace, h0]
      | ok bytes =>
        by_cases hz : bytes.length = 0
        · simp [remaining_trace, h0, hz]
        · by_cases hlt : len < bytes.length
          · have hstep : remaining_trace len (ReadResult.ok bytes :: rest)
                = len :: remaining_trace 0 rest := by
              simp [remaining_trace, h0, hz, hlt]
            rw [hstep, List.chain'_cons']
            refine ⟨?_, ih 0⟩
            intro y hy
            rw [remaining_trace_head] at hy
            cases hy
            exact Nat.zero_le len
          · have hstep : remaining_trace len (ReadResult.ok bytes :: rest)
                = len :: remaining_trace (len - bytes.length) rest := by
              simp [remaining_trace, h0, hz, hlt]
            rw [hstep, List.chain'_cons']
            refine ⟨?_, ih (len - bytes.length)⟩
            intro y hy
            rw [remaining_trace_head] at hy
            cases hy
            exact Nat.sub_le _ _

/-! ### Claim theorems: streaming -/

/-- C3: the remaining counter of `file_stream` decreases monotonically;
the emitted chunk bytes never exceed `len` (the metadata length); they
equal `len` when the readable bytes suffice and equal the readable bytes
when the file is shorter; a read overshooting the counter is truncated to
exactly the remaining bytes; and, reads being bounded by the reserved
capacity, no chunk exceeds the chosen chunk size. -/
theorem c3_stream_length_invariants (len buf_size : Nat) (reads : List ReadResult)
    (file : List (List Nat))
    (hbound : ∀ b, ReadResult.ok b ∈ reads → b.length ≤ buf_size)
    (hne : ∀ b ∈ file, b ≠ []) :
    stream_bytes (file_stream len reads) ≤ len
    ∧ (∀ c, StreamItem.chunk c ∈ file_stream len reads → c.length ≤ buf_size)
    ∧ (len ≤ (file.map List.length).sum
        → stream_bytes (file_stream len (file.map ReadResult.ok)) = len)
    ∧ ((file.map List.length).sum < len
        → stream_bytes (file_stream len (file.map ReadResult.ok)) = (file.map List.length).sum)
    ∧ (∀ bytes rest2, 0 < len → len < bytes.length
        → file_stream len (ReadResult.ok bytes :: rest2)
            = [StreamItem.chunk (bytes.take len)] ∧ (bytes.take len).length = len)
    ∧ List.Chain' (fun a b => b ≤ a) (remaining_trace len reads) := by
  refine ⟨stream_bytes_le reads len, file_stream_chunk_le buf_size reads len hbound,
    stream_bytes_full file len hne, stream_bytes_short file len hne, ?_,
    remaining_trace_antitone reads len⟩
  intro bytes rest2 h0 hlt
  have h0' : len ≠ 0 := by omega
  have hz : bytes.length ≠ 0 := by omega
  constructor
  · simp [file_stream, h0', hz, hlt, file_stream_zero]
  · simp [List.length_take]
    omega

/-- Witness for C3 at a 10-byte metadata length, one overshooting read
and a concrete short file. -/
theorem c3_witness :
    stream_bytes (file_stream 10 [ReadResult.ok [1, 2, 3, 4], ReadResult.ok [5, 6, 7]]) ≤ 10
    ∧ (∀ c, StreamItem.chunk c
          ∈ file_stream 10 [ReadResult.ok [1, 2, 3, 4], ReadResult.ok [5, 6, 7]]
        → c.length ≤ 4)
    ∧ (10 ≤ ([[1, 2], [3]].map (List.length (α := Nat))).sum
        → stream_bytes (file_stream 10 ([[1, 2], [3]].map ReadResult.ok)) = 10)
    ∧ (([[1, 2], [3]].map (List.length (α := Nat))).sum < 10
        → stream_bytes (file_stream 10 ([[1, 2], [3]].map ReadResult.ok))
            = ([[1, 2], [3]].map (List.length (α := Nat))).sum)
    ∧ (∀ bytes rest2, 0 < 10 → 10 < bytes.length
        → file_stream 10 (ReadResult.ok bytes :: rest2)
            = [StreamItem.chunk (bytes.take 10)] ∧ (bytes.take 10).length = 10)
    ∧ List.Chain' (fun a b => b ≤ a)
        (remaining_trace 10 [ReadResult.ok [1, 2, 3, 4], ReadResult.ok [5, 6, 7]]) := by
  apply c3_stream_length_invariants
  · intro b hb
    simp at hb
    rcases hb with h | h <;> subst h <;> decide
  · intro b hb
    simp at hb
    rcases hb with h | h <;> subst h <;> decide

/-- C9: with bytes still expected, a 0-byte read terminates the chunk
sequence cleanly (no further items, no error item); only a failing read
yields the error item. -/
theorem c9_eof_is_clean_termination (len : Nat) (rest : List ReadResult) (h0 : 0 < len) :
    file_stream len (ReadResult.ok [] :: rest) = []
    ∧ file_stream len (ReadResult.err :: rest) = [StreamItem.ioError] := by
  have h0' : len ≠ 0 := by omega
  constructor <;> simp [file_stream, h0']

/-- Witness for C9 with one expected byte and a subsequent read queued. -/
theorem c9_witness :
    file_stream 1 [ReadResult.ok [], ReadResult.ok [7]] = []
    ∧ file_stream 1 [ReadResult.err, ReadResult.ok [7]] = [StreamItem.ioError] :=
  c9_eof_is_clean_termination 1 [ReadResult.ok [7]] (by decide)

/-! ### Claim theorems: error mapping, buffer sizing, inert options -/

/-- C6: a failing filesystem step makes `create_file_response` resolve to
the handler-error outcome carrying exactly the mapped status — 404 for
not-found, 403 for permission-denied, 500 for every other kind — so no
filesystem failure escapes unmapped. -/
theorem c6_error_status_mapping (parseHttpDate : String → Option Int)
    (mimeForPath : List String → String) (fs : List String → Except ErrorKind Metadata)
    (isUnix : Bool) (path : List String) (headers : HeaderMap) (k : ErrorKind)
    (hferr : fs path = Except.error k) :
    create_file_response parseHttpDate mimeForPath fs isUnix path headers
        = HandlerOutcome.handlerError (error_status k) k
    ∧ (error_status k = 404 ∨ error_status k = 403 ∨ error_status k = 500)
    ∧ (k = ErrorKind.notFound → error_status k = 404)
    ∧ (k = ErrorKind.permissionDenied → error_status k = 403)
    ∧ (k ≠ ErrorKind.notFound → k ≠ ErrorKind.permissionDenied → error_status k = 500) := by
  refine ⟨by simp [create_file_response, hferr], ?_, ?_, ?_, ?_⟩ <;>
    cases k <;> simp [error_status]

/-- Witness for C6 on a filesystem that reports not-found. -/
theorem c6_witness :
    create_file_response (fun _ => none) (fun _ => "text/html")
        (fun _ => Except.error ErrorKind.notFound) true ["root", "a.txt"] ⟨[], none⟩
        = HandlerOutcome.handlerError (error_status ErrorKind.notFound) ErrorKind.notFound
    ∧ (error_status ErrorKind.notFound = 404 ∨ error_status ErrorKind.notFound = 403
        ∨ error_status ErrorKind.notFound = 500)
    ∧ (ErrorKind.notFound = ErrorKind.notFound → error_status ErrorKind.notFound = 404)
    ∧ (ErrorKind.notFound = ErrorKind.permissionDenied
        → error_status ErrorKind.notFound = 403)
    ∧ (ErrorKind.notFound ≠ ErrorKind.notFound → ErrorKind.notFound ≠ ErrorKind.permissionDenied
        → error_status ErrorKind.notFound = 500) :=
  c6_error_status_mapping (fun _ => none) (fun _ => "text/html")
    (fun _ => Except.error ErrorKind.notFound) true ["root", "a.txt"] ⟨[], none⟩
    ErrorKind.notFound rfl

/-- C7: the chunk size is `min(block size, file length)`, computed from
the metadata before streaming begins (it is the buffer size baked into
the 200 response's stream body), with an 8192-byte block size on
platforms that cannot report one and the metadata-reported block size on
unix. -/
theorem c7_chunk_size_choice (metadata : Metadata) (isUnix : Bool) :
    optimal_buf_size isUnix metadata = min (get_block_size isUnix metadata) metadata.len
    ∧ optimal_buf_size isUnix metadata ≤ metadata.len
    ∧ get_block_size true metadata = metadata.blksize
    ∧ get_block_size false metadata = 8192
    ∧ (∀ (parseHttpDate : String → Option Int) (mimeForPath : List String → String)
        (fs : List String → Except ErrorKind Metadata) (path : List String)
        (headers : HeaderMap) (m2 : Metadata) (r : Response),
        fs path = Except.ok m2
        → create_file_response parseHttpDate mimeForPath fs isUnix path headers
            = HandlerOutcome.ok r
        → r.status = 200
        → r.body = BodyModel.stream (optimal_buf_size isUnix m2) m2.len) := by
  refine ⟨rfl, min_le_right _ _, rfl, rfl, ?_⟩
  intro parseHttpDate mimeForPath fs path headers m2 r hfs hok hst
  simp only [create_file_response, hfs] at hok
  by_cases hnm : not_modified parseHttpDate m2 headers
  · rw [if_pos hnm] at hok
    simp only [HandlerOutcome.ok.injEq] at hok
    subst hok
    simp at hst
  · rw [if_neg hnm] at hok
    simp only [HandlerOutcome.ok.injEq] at hok
    subst hok
    rfl

/-- C10: the `cache_control`, `gzip` and `brotli` fields of the handler
configuration are inert — two configurations sharing a path produce
identical outcomes for every request, in both handler modes — and a
successful response only ever carries the `Content-Length`,
`Content-Type` and `ETag` headers (never `Cache-Control`,
`Last-Modified` or `Content-Encoding`). -/
theorem c10_options_inert (parseHttpDate : String → Option Int)
    (mimeForPath : List String → String) (fs : List String → Except ErrorKind Metadata)
    (isUnix : Bool) (o1 o2 : FileOptions) (parts : List Component) (headers : HeaderMap)
    (hpath : o1.path = o2.path) :
    FileSystemHandler.handle parseHttpDate mimeForPath fs isUnix o1 parts headers
      = FileSystemHandler.handle parseHttpDate mimeForPath fs isUnix o2 parts headers
    ∧ FileHandler.handle parseHttpDate mimeForPath fs isUnix o1 headers
      = FileHandler.handle parseHttpDate mimeForPath fs isUnix o2 headers
    ∧ (∀ (r : Response) (hname hvalue : String),
        FileSystemHandler.handle parseHttpDate mimeForPath fs isUnix o1 parts headers
            = HandlerOutcome.ok r
        → (hname, hvalue) ∈ r.headers
        → hname = "content-length" ∨ hname = "content-type" ∨ hname = "etag") := by
  refine ⟨by simp [FileSystemHandler.handle, hpath], by simp [FileHandler.handle, hpath], ?_⟩
  intro r hname hvalue hok hmem
  simp only [FileSystemHandler.handle] at hok
  cases hfs : fs (resolve_path o1.path parts) with
  | error e =>
    simp only [create_file_response, hfs] at hok
    exact absurd hok (by simp)
  | ok meta =>
    simp only [create_file_response, hfs] at hok
    by_cases hnm : not_modified parseHttpDate meta headers
    · rw [if_pos hnm] at hok
      simp only [HandlerOutcome.ok.injEq] at hok
      subst hok
      simp at hmem
    · rw [if_neg hnm] at hok
      simp only [HandlerOutcome.ok.injEq] at hok
      subst hok
      cases he : entity_tag meta with
      | none =>
        rw [he] at hmem
        simp [Prod.ext_iff] at hmem
        tauto
      | some etag =>
        rw [he] at hmem
        simp [Prod.ext_iff] at hmem
        tauto

/-- Witness for C10: two configurations differing in `cache_control`,
`gzip` and `brotli` produce identical outcomes for a request that yields
a 200 response, and whatever headers that response carries are among
`Content-Length`, `Content-Type` and `ETag`. -/
theorem c10_witness :
    FileSystemHandler.handle (fun _ => none) (fun _ => "text/html")
        (fun _ => Except.ok ⟨24, none, 4096⟩) true ⟨["root"], "public", false, false⟩ []
        ⟨[], none⟩
      = FileSystemHandler.handle (fun _ => none) (fun _ => "text/html")
        (fun _ => Except.ok ⟨24, none, 4096⟩) true ⟨["root"], "private, max-age=0", true, true⟩
        [] ⟨[], none⟩
    ∧ FileHandler.handle (fun _ => none) (fun _ => "text/html")
        (fun _ => Except.ok ⟨24, none, 4096⟩) true ⟨["root"], "public", false, false⟩ ⟨[], none⟩
      = FileHandler.handle (fun _ => none) (fun _ => "text/html")
        (fun _ => Except.ok ⟨24, none, 4096⟩) true ⟨["root"], "private, max-age=0", true, true⟩
        ⟨[], none⟩
    ∧ (∀ (r : Response) (hname hvalue : String),
        FileSystemHandler.handle (fun _ => none) (fun _ => "text/html")
            (fun _ => Except.ok ⟨24, none, 4096⟩) true ⟨["root"], "public", false, false⟩ []
            ⟨[], none⟩
          = HandlerOutcome.ok r
        → (hname, hvalue) ∈ r.headers
        → hname = "content-length" ∨ hname = "content-type" ∨ hname = "etag") :=
  c10_options_inert (fun _ => none) (fun _ => "text/html")
    (fun _ => Except.ok ⟨24, none, 4096⟩) true ⟨["root"], "public", false, false⟩
    ⟨["root"], "private, max-age=0", true, true⟩ [] ⟨[], none⟩ rfl

end StaticFile
